import Mathlib

/-!
Verification of the compile-commander compilation-database editor,
embedded from src/main.rs.

Command strings, paths and field names are modelled as lists of
characters (`Str`).  Rust `str::find` works on byte offsets of valid
UTF-8 text; a match of one valid UTF-8 string inside another always
falls on character boundaries, so character-level search selects the
same occurrence and the character-level insert/remove below perform
the same edit as the byte-level Rust operations.

JSON values are modelled by the inductive `Json`; object fields are an
ordered association list, numeric payloads are opaque to the program
and carried as integers.  Decoding and encoding of JSON text, and the
textual rendering of JSON values inside diagnostics, are external
library behaviour and are abstracted (the `render` parameter of
`errMessage`).
-/

/-- Command strings and paths, modelled as lists of characters. -/
abbrev Str : Type := List Char

/-- Conversion from Lean string literals. -/
def strOf (s : String) : Str := s.toList

/-- First offset at which `pat` occurs as a contiguous substring of the
second argument, modelling Rust `str::find` with a string pattern
(leftmost match; `some 0` for the empty pattern). -/
def findSub (pat : Str) : Str → Option Nat
  | [] => if pat.isPrefixOf [] then some 0 else none
  | c :: rest =>
    if pat.isPrefixOf (c :: rest) then some 0
    else (findSub pat rest).map (fun j => j + 1)

/-- Insertion of text `t` at offset `i`, modelling `String::insert_str`. -/
def insertAt (s : Str) (i : Nat) (t : Str) : Str := s.take i ++ t ++ s.drop i

/-- Removal of `len` characters starting at offset `i`, modelling
`String::replace_range(i..i+len, "")`. -/
def removeRange (s : Str) (i len : Nat) : Str := s.take i ++ s.drop (i + len)

/-- One add-include step, main.rs lines 105-109: find the first
occurrence of `-I` in the command and insert `" -I<p> "` there;
if there is no occurrence, leave the command unchanged. -/
def addIncludeOne (s p : Str) : Str :=
  match findSub (strOf "-I") s with
  | some index => insertAt s index (strOf " -I" ++ p ++ strOf " ")
  | none => s

/-- One delete-include step, main.rs lines 111-116: remove the first
occurrence of `" -I<p>"` if present. -/
def deleteIncludeOne (s p : Str) : Str :=
  let target := strOf " -I" ++ p
  match findSub target s with
  | some start_idx => removeRange s start_idx target.length
  | none => s

/-- One add-arg step, main.rs lines 118-120: append `" -<a>"`. -/
def addArgOne (s a : Str) : Str := s ++ (strOf " -" ++ a)

/-- One delete-arg step, main.rs lines 122-127: remove the first
occurrence of `" -<a>"` if present. -/
def deleteArgOne (s a : Str) : Str :=
  let target := strOf " -" ++ a
  match findSub target s with
  | some start_idx => removeRange s start_idx target.length
  | none => s

/-- The four repeatable edit lists taken from the command line
(`add_include`, `delete_include`, `add_arg`, `delete_arg`). -/
structure EditRequest where
  addInclude : List Str
  deleteInclude : List Str
  addArg : List Str
  deleteArg : List Str

/-- Full mutation of one command string, main.rs lines 104-127: the four
edit kinds are applied in this fixed order, each list in input order,
threading the current string through every step. -/
def mutateCommand (req : EditRequest) (s : Str) : Str :=
  let s1 := req.addInclude.foldl addIncludeOne s
  let s2 := req.deleteInclude.foldl deleteIncludeOne s1
  let s3 := req.addArg.foldl addArgOne s2
  req.deleteArg.foldl deleteArgOne s3

/-- Decoded JSON values (`serde_json::Value`).  Object fields are an
ordered association list; the numeric payload is never inspected by the
program and is modelled as an integer. -/
inductive Json : Type where
  | null : Json
  | bool (b : Bool) : Json
  | num (n : Int) : Json
  | str (s : Str) : Json
  | arr (items : List Json) : Json
  | obj (fields : List (Str × Json)) : Json

/-- Field lookup in an object, modelling `Map::get`. -/
def lookupField (k : Str) : List (Str × Json) → Option Json
  | [] => none
  | (k', v) :: rest => if k' = k then some v else lookupField k rest

/-- In-place update of the value stored under `k` (the first matching
entry), modelling mutation through `Map::get_mut`. -/
def updateField (k : Str) (v : Json) : List (Str × Json) → List (Str × Json)
  | [] => []
  | (k', v') :: rest =>
    if k' = k then (k', v) :: rest else (k', v') :: updateField k v rest

/-- The error taxonomy of the run, one constructor per `return Err` /
`with_context` site in main.rs, carrying the data interpolated into the
corresponding message. -/
inductive Err : Type where
  | ioError (path : Str) : Err
  | decodeError (path : Str) : Err
  | malformedDatabase (path : Str) : Err
  | notAnObject (path : Str) (unit : Json) : Err
  | missingFile (fields : List (Str × Json)) : Err
  | fileNotString (fields : List (Str × Json)) : Err
  | missingCommand (name : Str) : Err
  | commandNotString (name : Str) : Err

/-- Diagnostic text of each error, following the format strings in
main.rs.  The textual rendering of a JSON value spliced into a message
(Debug and Display formatting of `serde_json` values) is a library
detail and is abstracted as the `render` argument. -/
def errMessage (render : Json → Str) : Err → Str
  | .ioError path => strOf "Could not open " ++ path
  | .decodeError path => strOf "Could not parse " ++ path ++ strOf " as json"
  | .malformedDatabase path =>
      path ++ strOf " file was not formatted correctly, the top level item must be an array or object"
  | .notAnObject path unit =>
      path ++ strOf " file was not formatted correctly. The following compile unit was not in the form of a JSON object: "
        ++ render unit
  | .missingFile fields =>
      strOf "The following compile unit did not have a command field: " ++ render (Json.obj fields)
  | .fileNotString fields =>
      strOf "the following compile unit\x27s file name was not a string: " ++ render (Json.obj fields)
  | .missingCommand name =>
      strOf "The following compile unit did not have a command field: " ++ name
  | .commandNotString name =>
      strOf "the following compile unit\x27s command field was not a string: " ++ name

/-- Normalization of the decoded top-level value into the sequence of
compile units, main.rs lines 55-64: an array contributes its elements
verbatim, a bare object becomes a one-element sequence, anything else
is a malformed database. -/
def normalizeDb (path : Str) (v : Json) : Except Err (List Json) :=
  match v with
  | .arr items => .ok items
  | .obj fields => .ok [.obj fields]
  | _ => .error (.malformedDatabase path)

/-- Validation, extraction and mutation of one compile unit, main.rs
lines 66-128: the unit must be an object, its `file` field must exist
and be a string, its `command` field must exist and be a string, and
only the `command` string is rewritten. -/
def processUnit (path : Str) (req : EditRequest) (u : Json) : Except Err Json :=
  match u with
  | .obj fields =>
    match lookupField (strOf "file") fields with
    | none => .error (.missingFile fields)
    | some (.str name) =>
      match lookupField (strOf "command") fields with
      | none => .error (.missingCommand name)
      | some (.str compile_command) =>
          .ok (.obj (updateField (strOf "command")
                 (.str (mutateCommand req compile_command)) fields))
      | some _ => .error (.commandNotString name)
    | some _ => .error (.fileNotString fields)
  | _ => .error (.notAnObject path u)

/-- The whole validate-and-mutate loop of main.rs lines 66-128 over the
unit sequence: units are processed strictly in order and the first
failing unit aborts the pass with its error. -/
def processAll (path : Str) (req : EditRequest) : List Json → Except Err (List Json)
  | [] => .ok []
  | u :: rest =>
    match processUnit path req u with
    | .error e => .error e
    | .ok u' =>
      match processAll path req rest with
      | .error e => .error e
      | .ok rest' => .ok (u' :: rest')

/-- The parsed command-line arguments (`Args` in main.rs). -/
structure Args : Type where
  compile_commands : Str
  output : Str
  add_include : List Str
  delete_include : List Str
  add_arg : List Str
  delete_arg : List Str

/-- The edit request carried by the parsed arguments. -/
def reqOf (args : Args) : EditRequest :=
  ⟨args.add_include, args.delete_include, args.add_arg, args.delete_arg⟩

/-- The emptiness test of main.rs lines 37-41. -/
def allEmpty (args : Args) : Bool :=
  args.add_include.isEmpty && args.delete_include.isEmpty
    && args.add_arg.isEmpty && args.delete_arg.isEmpty

/-- State of the input file as the run would observe it: the open call
fails, the bytes are not valid JSON, or a value was decoded. -/
inductive InputFile : Type where
  | unreadable : InputFile
  | unparsable : InputFile
  | parsed (v : Json) : InputFile

/-- Observable outcome of one run: the early exit that prints
"No modifications requested, exiting." and touches no file, a written
output file (path and serialized value), or an error exit with nothing
written. -/
inductive RunOutcome : Type where
  | noModification : RunOutcome
  | wrote (path : Str) (content : Json) : RunOutcome
  | failed (e : Err) : RunOutcome

/-- Whether the outcome created and wrote the output file. -/
def wroteOutput : RunOutcome → Bool
  | .wrote _ _ => true
  | _ => false

/-- Whether the process exits with status zero. -/
def exitsZero : RunOutcome → Bool
  | .noModification => true
  | .wrote _ _ => true
  | .failed _ => false

/-- The whole run of `main`, lines 34-138: the emptiness check comes
before any file access; then the input is opened and decoded, the
top-level value normalized, every unit validated and mutated (stopping
at the first error), and only on full success is the output file
created and the array of units written to it. -/
def run (args : Args) (input : InputFile) : RunOutcome :=
  if allEmpty args then .noModification
  else
    match input with
    | .unreadable => .failed (.ioError args.compile_commands)
    | .unparsable => .failed (.decodeError args.compile_commands)
    | .parsed v =>
      match normalizeDb args.compile_commands v with
      | .error e => .failed e
      | .ok units =>
        match processAll args.compile_commands (reqOf args) units with
        | .error e => .failed e
        | .ok units' => .wrote args.output (.arr units')

/-- Characterization of a successful search: `findSub` returns the
offset of the leftmost occurrence of the pattern. -/
theorem findSub_some_iff (pat s : Str) (i : Nat) :
    findSub pat s = some i ↔
      pat <+: s.drop i ∧ ∀ j, j < i → ¬ pat <+: s.drop j := by
  induction s generalizing i with
  | nil =>
    simp only [findSub, List.drop_nil]
    split
    next hb =>
      replace hb : pat <+: ([] : Str) := by simpa using hb
      constructor
      · intro h
        obtain rfl : (0 : Nat) = i := by simpa using h
        exact ⟨hb, fun j hj => absurd hj (Nat.not_lt_zero j)⟩
      · rintro ⟨-, hmin⟩
        rcases Nat.eq_zero_or_pos i with rfl | hpos
        · rfl
        · exact absurd hb (hmin 0 hpos)
    next hb =>
      replace hb : ¬ pat <+: ([] : Str) := by simpa using hb
      constructor
      · intro h; simp at h
      · rintro ⟨h1, -⟩; exact absurd h1 hb
  | cons c rest ih =>
    simp only [findSub]
    split
    next hb =>
      replace hb : pat <+: c :: rest := by simpa using hb
      constructor
      · intro h
        obtain rfl : (0 : Nat) = i := by simpa using h
        exact ⟨by simpa using hb, fun j hj => absurd hj (Nat.not_lt_zero j)⟩
      · rintro ⟨-, hmin⟩
        rcases Nat.eq_zero_or_pos i with rfl | hpos
        · rfl
        · exact absurd hb (by simpa using hmin 0 hpos)
    next hb =>
      replace hb : ¬ pat <+: c :: rest := by simpa using hb
      constructor
      · intro h
        rw [Option.map_eq_some'] at h
        obtain ⟨i', hi', rfl⟩ := h
        obtain ⟨h1, h2⟩ := (ih i').mp hi'
        refine ⟨by simpa using h1, ?_⟩
        intro j hj
        cases j with
        | zero => simpa using hb
        | succ j' =>
          have hj' : j' < i' := by omega
          simpa using h2 j' hj'
      · rintro ⟨h1, h2⟩
        cases i with
        | zero => exact absurd (by simpa using h1) hb
        | succ i' =>
          have hmem : findSub pat rest = some i' := by
            rw [ih i']
            refine ⟨by simpa using h1, ?_⟩
            intro j hj
            have hh := h2 (j + 1) (by omega)
            simpa using hh
          rw [hmem]
          rfl

/-- Characterization of a failed search: `findSub` returns `none`
exactly when the pattern occurs nowhere. -/
theorem findSub_none_iff (pat s : Str) :
    findSub pat s = none ↔ ∀ i, ¬ pat <+: s.drop i := by
  induction s with
  | nil =>
    simp only [findSub, List.drop_nil]
    split
    next hb =>
      replace hb : pat <+: ([] : Str) := by simpa using hb
      constructor
      · intro h; simp at h
      · intro h; exact absurd hb (h 0)
    next hb =>
      replace hb : ¬ pat <+: ([] : Str) := by simpa using hb
      exact iff_of_true rfl fun i => hb
  | cons c rest ih =>
    simp only [findSub]
    split
    next hb =>
      replace hb : pat <+: c :: rest := by simpa using hb
      constructor
      · intro h; simp at h
      · intro h; exact absurd hb (by simpa using h 0)
    next hb =>
      replace hb : ¬ pat <+: c :: rest := by simpa using hb
      rw [Option.map_eq_none', ih]
      constructor
      · intro h i
        cases i with
        | zero => simpa using hb
        | succ i' => simpa using h i'
      · intro h i
        simpa using h (i + 1)

/-- A successful search for a nonempty pattern lands strictly inside
the string. -/
theorem findSub_lt_length {pat s : Str} {i : Nat} (hne : pat ≠ [])
    (h : findSub pat s = some i) : i < s.length := by
  obtain ⟨h1, -⟩ := (findSub_some_iff pat s i).mp h
  have hlen := h1.length_le
  rw [List.length_drop] at hlen
  have hpos : 0 < pat.length := List.length_pos.mpr hne
  omega

/-- A prefix of an append that fits inside the left part is a prefix of
the left part. -/
theorem pfx_of_pfx_append {l₁ l₂ l₃ : Str} (h : l₁ <+: l₂ ++ l₃)
    (hlen : l₁.length ≤ l₂.length) : l₁ <+: l₂ := by
  obtain ⟨t, ht⟩ := h
  have h1 : (l₁ ++ t).take l₁.length = l₁ := by
    rw [List.take_append_of_le_length (Nat.le_refl _), List.take_length]
  have h2 : (l₂ ++ l₃).take l₁.length = l₂.take l₁.length :=
    List.take_append_of_le_length hlen
  have h3 : l₁ = l₂.take l₁.length := by
    have h4 := congrArg (List.take l₁.length) ht
    rw [h1, h2] at h4
    exact h4
  refine ⟨l₂.drop l₁.length, ?_⟩
  nth_rewrite 1 [h3]
  exact List.take_append_drop _ _

/-- Inserting `" -I<p> "` at the leftmost occurrence of `-I` moves the
leftmost occurrence one position to the right: it is now the `-I` of
the freshly inserted text. -/
theorem findSub_insertAt_anchor (s p : Str) (i : Nat)
    (h : findSub (strOf "-I") s = some i) :
    findSub (strOf "-I") (insertAt s i (strOf " -I" ++ p ++ strOf " "))
      = some (i + 1) := by
  have hlt : i < s.length := findSub_lt_length (by decide) h
  obtain ⟨hocc, hmin⟩ := (findSub_some_iff _ s i).mp h
  have hAlen : (s.take i).length = i := by
    rw [List.length_take]; omega
  have hins : strOf " -I" ++ p ++ strOf " " = ' ' :: '-' :: 'I' :: (p ++ [' ']) := by
    have e1 : strOf " -I" = [' ', '-', 'I'] := rfl
    have e2 : strOf " " = [' '] := rfl
    rw [e1, e2]; simp
  have hpat : strOf "-I" = ['-', 'I'] := rfl
  have hsplit : insertAt s i (strOf " -I" ++ p ++ strOf " ")
      = s.take i ++ (' ' :: '-' :: 'I' :: (p ++ [' ']) ++ s.drop i) := by
    rw [insertAt, hins, List.append_assoc]
  rw [hsplit, findSub_some_iff]
  constructor
  · have hd : (s.take i ++ (' ' :: '-' :: 'I' :: (p ++ [' ']) ++ s.drop i)).drop (i + 1)
        = '-' :: 'I' :: (p ++ [' ']) ++ s.drop i := by
      rw [← List.drop_drop,
        List.drop_append_of_le_length (by omega : i ≤ (s.take i).length),
        List.drop_of_length_le (by omega : (s.take i).length ≤ i)]
      rfl
    rw [hd, hpat]
    exact ⟨(p ++ [' ']) ++ s.drop i, by simp⟩
  · intro j hj hp
    rw [List.drop_append_of_le_length (by omega : j ≤ (s.take i).length)] at hp
    have hsd : (s.take i).drop j ++ s.drop i = s.drop j := by
      conv_rhs => rw [← List.take_append_drop i s]
      rw [List.drop_append_of_le_length (by omega : j ≤ (s.take i).length)]
    have hDlen : ((s.take i).drop j).length = i - j := by
      rw [List.length_drop, hAlen]
    rcases Nat.lt_or_ge (i - j) 1 with h1 | h1
    · have hD : (s.take i).drop j = [] := by
        rw [← List.length_eq_zero]
        omega
      rw [hD, List.nil_append, hpat] at hp
      simp only [List.cons_append, List.nil_append, List.cons_prefix_cons] at hp
      exact absurd hp.1 (by decide)
    rcases Nat.lt_or_ge (i - j) 2 with h2 | h2
    · have hDlen1 : ((s.take i).drop j).length = 1 := by omega
      obtain ⟨ch, hch⟩ := List.length_eq_one.mp hDlen1
      rw [hch, hpat] at hp
      simp only [List.cons_append, List.nil_append, List.cons_prefix_cons] at hp
      exact absurd hp.2.1 (by decide)
    · have hple : (strOf "-I").length ≤ ((s.take i).drop j).length := by
        have e3 : (strOf "-I").length = 2 := rfl
        rw [e3, hDlen]
        omega
      have hpxD : strOf "-I" <+: (s.take i).drop j := pfx_of_pfx_append hp hple
      have hpxS : strOf "-I" <+: s.drop j :=
        hpxD.trans ⟨s.drop i, hsd⟩
      exact absurd hpxS (hmin j (by omega))

/-- If any unit of the list fails, the whole pass fails. -/
theorem processAll_error_of_mem (path : Str) (req : EditRequest)
    (l : List Json) (h : ∃ u ∈ l, ∃ e, processUnit path req u = .error e) :
    ∃ e, processAll path req l = .error e := by
  induction l with
  | nil => simp at h
  | cons x xs ih =>
    obtain ⟨u, hu, e, he⟩ := h
    rcases hfx : processUnit path req x with e' | y
    · exact ⟨e', by simp [processAll, hfx]⟩
    · rcases List.mem_cons.mp hu with rfl | hmem
      · rw [hfx] at he; cases he
      · obtain ⟨e'', he''⟩ := ih ⟨u, hmem, e, he⟩
        exact ⟨e'', by simp [processAll, hfx, he'']⟩

/-- A successful pass succeeds on every unit, pointwise and in order,
and preserves the length of the sequence. -/
theorem processAll_ok_spec (path : Str) (req : EditRequest)
    (l l' : List Json) (h : processAll path req l = .ok l') :
    l'.length = l.length ∧
      ∀ (n : Nat) (x y : Json),
        l[n]? = some x → l'[n]? = some y → processUnit path req x = .ok y := by
  induction l generalizing l' with
  | nil =>
    obtain rfl : ([] : List Json) = l' := by simpa [processAll] using h
    refine ⟨rfl, ?_⟩
    intro n x y hx hy
    simp at hx
  | cons x xs ih =>
    rcases hfx : processUnit path req x with e | y
    · simp [processAll, hfx] at h
    · rcases hxs : processAll path req xs with e | ys
      · simp [processAll, hfx, hxs] at h
      · simp only [processAll, hfx, hxs] at h
        obtain rfl : y :: ys = l' := by simpa using h
        obtain ⟨hlen, hpt⟩ := ih ys hxs
        refine ⟨by simp [hlen], ?_⟩
        intro n a b ha hb
        cases n with
        | zero =>
          simp only [List.getElem?_cons_zero] at ha hb
          obtain rfl : x = a := by simpa using ha
          obtain rfl : y = b := by simpa using hb
          exact hfx
        | succ n =>
          simp only [List.getElem?_cons_succ] at ha hb
          exact hpt n a b ha hb

/-- Updating one key of an object leaves the binding of every other key
unchanged. -/
theorem lookupField_updateField_ne (k key : Str) (v : Json)
    (fields : List (Str × Json)) (h : k ≠ key) :
    lookupField k (updateField key v fields) = lookupField k fields := by
  induction fields with
  | nil => rfl
  | cons kv rest ih =>
    obtain ⟨k', v'⟩ := kv
    simp only [updateField]
    by_cases hk : k' = key
    · rw [if_pos hk]
      simp only [lookupField]
      have hne : ¬ k' = k := fun hh => h (hh.symm.trans hk)
      rw [if_neg hne, if_neg hne]
    · rw [if_neg hk]
      simp only [lookupField]
      by_cases hkk : k' = k
      · rw [if_pos hkk, if_pos hkk]
      · rw [if_neg hkk, if_neg hkk, ih]

/-- A left fold over a constant list is an iterate. -/
theorem foldl_replicate {α β : Type} (f : α → β → α) (b : β) (n : Nat)
    (x : α) :
    (List.replicate n b).foldl f x = (fun t => f t b)^[n] x := by
  induction n generalizing x with
  | zero => rfl
  | succ n ih =>
    rw [List.replicate_succ, List.foldl_cons, Function.iterate_succ_apply]
    exact ih (f x b)

/-- C1: add-include semantics.  For every command string and include
path, if the two-character substring `-I` first occurs at offset `i`
then the addition inserts ` -I<p> ` at offset `i`; if `-I` occurs
nowhere the addition leaves the string unchanged; and the additions
fold left over the supplied list, each result becoming the current
string of the next addition. -/
theorem add_include_first_anchor_spec (s p : Str) (ps : List Str) (i : Nat) :
    (strOf "-I" <+: s.drop i → (∀ j, j < i → ¬ strOf "-I" <+: s.drop j) →
       addIncludeOne s p = s.take i ++ (strOf " -I" ++ p ++ strOf " ") ++ s.drop i) ∧
    ((∀ j, ¬ strOf "-I" <+: s.drop j) → addIncludeOne s p = s) ∧
    (p :: ps).foldl addIncludeOne s = ps.foldl addIncludeOne (addIncludeOne s p) := by
  refine ⟨?_, ?_, rfl⟩
  · intro h1 h2
    have hfind : findSub (strOf "-I") s = some i :=
      (findSub_some_iff _ _ _).mpr ⟨h1, h2⟩
    simp only [addIncludeOne, hfind, insertAt]
  · intro h
    have hfind : findSub (strOf "-I") s = none :=
      (findSub_none_iff _ _).mpr h
    simp only [addIncludeOne, hfind]

/-- Witness for C1: a concrete insertion in front of the first `-I`,
and a concrete no-op on a string without `-I`. -/
theorem add_include_first_anchor_spec_witness :
    addIncludeOne (strOf "clang -Ia") (strOf "q") = strOf "clang  -Iq -Ia" ∧
    addIncludeOne (strOf "gcc a.c") (strOf "q") = strOf "gcc a.c" := by
  constructor
  · exact ((add_include_first_anchor_spec (strOf "clang -Ia") (strOf "q") [] 6).1
      (by decide) (by decide)).trans (by decide)
  · exact (add_include_first_anchor_spec (strOf "gcc a.c") (strOf "q") [] 0).2.1
      ((findSub_none_iff _ _).mp (by decide))

/-- C3: delete semantics.  For include deletion (target ` -I<p>`) and
arg deletion (target ` -<a>`) alike, exactly the first occurrence of
the exact target substring is removed when one exists, the string is
unchanged otherwise, and a list of n identical requests iterates the
single deletion n times, removing one occurrence per request. -/
theorem delete_first_occurrence_spec (s p a : Str) (i n : Nat) :
    (strOf " -I" ++ p <+: s.drop i →
       (∀ j, j < i → ¬ strOf " -I" ++ p <+: s.drop j) →
       deleteIncludeOne s p = s.take i ++ s.drop (i + (strOf " -I" ++ p).length)) ∧
    ((∀ j, ¬ strOf " -I" ++ p <+: s.drop j) → deleteIncludeOne s p = s) ∧
    (strOf " -" ++ a <+: s.drop i →
       (∀ j, j < i → ¬ strOf " -" ++ a <+: s.drop j) →
       deleteArgOne s a = s.take i ++ s.drop (i + (strOf " -" ++ a).length)) ∧
    ((∀ j, ¬ strOf " -" ++ a <+: s.drop j) → deleteArgOne s a = s) ∧
    (List.replicate n p).foldl deleteIncludeOne s
      = (fun t => deleteIncludeOne t p)^[n] s ∧
    (List.replicate n a).foldl deleteArgOne s
      = (fun t => deleteArgOne t a)^[n] s := by
  refine ⟨?_, ?_, ?_, ?_, foldl_replicate _ _ _ _, foldl_replicate _ _ _ _⟩
  · intro h1 h2
    have hfind : findSub (strOf " -I" ++ p) s = some i :=
      (findSub_some_iff _ _ _).mpr ⟨h1, h2⟩
    simp only [deleteIncludeOne, hfind, removeRange]
  · intro h
    have hfind : findSub (strOf " -I" ++ p) s = none :=
      (findSub_none_iff _ _).mpr h
    simp only [deleteIncludeOne, hfind]
  · intro h1 h2
    have hfind : findSub (strOf " -" ++ a) s = some i :=
      (findSub_some_iff _ _ _).mpr ⟨h1, h2⟩
    simp only [deleteArgOne, hfind, removeRange]
  · intro h
    have hfind : findSub (strOf " -" ++ a) s = none :=
      (findSub_none_iff _ _).mpr h
    simp only [deleteArgOne, hfind]

/-- Witness for C3: a concrete include deletion, a concrete arg
deletion, a concrete no-op, and two identical requests removing two
occurrences one at a time. -/
theorem delete_first_occurrence_spec_witness :
    deleteIncludeOne (strOf "cc -Ix -O2 f.c") (strOf "x") = strOf "cc -O2 f.c" ∧
    deleteArgOne (strOf "cc -Ix -O2 f.c") (strOf "O2") = strOf "cc -Ix f.c" ∧
    deleteIncludeOne (strOf "cc f.c") (strOf "x") = strOf "cc f.c" ∧
    (List.replicate 2 (strOf "x")).foldl deleteIncludeOne (strOf "cc -Ix -Ix f.c")
      = (fun t => deleteIncludeOne t (strOf "x"))^[2] (strOf "cc -Ix -Ix f.c") := by
  refine ⟨?_, ?_, ?_, ?_⟩
  · exact ((delete_first_occurrence_spec (strOf "cc -Ix -O2 f.c") (strOf "x")
      (strOf "O2") 2 2).1 (by decide) (by decide)).trans (by decide)
  · exact ((delete_first_occurrence_spec (strOf "cc -Ix -O2 f.c") (strOf "x")
      (strOf "O2") 6 2).2.2.1 (by decide) (by decide)).trans (by decide)
  · exact (delete_first_occurrence_spec (strOf "cc f.c") (strOf "x")
      (strOf "x") 0 0).2.1 ((findSub_none_iff _ _).mp (by decide))
  · exact (delete_first_occurrence_spec (strOf "cc -Ix -Ix f.c") (strOf "x")
      (strOf "x") 0 2).2.2.2.2.1

/-- C2 counterexample: the worked example does not hold as stated.  The
delete half is right, but add-include `baz` on
`"clang -c -Ifoo/bar file.c"` does not produce
`"clang -c -Ibaz  -Ifoo/bar file.c"`: the inserted text ` -Ibaz ` goes
in at the offset of the first `-I`, whose left neighbour is already a
space, so the double space falls before `-Ibaz`, not after it. -/
theorem roundtrip_example_claim_false :
    ¬ (deleteIncludeOne (strOf "clang -c -Ifoo/bar file.c") (strOf "foo/bar")
          = strOf "clang -c file.c" ∧
       addIncludeOne (strOf "clang -c -Ifoo/bar file.c") (strOf "baz")
          = strOf "clang -c -Ibaz  -Ifoo/bar file.c") := by decide

/-- C2 amended: delete-include `foo/bar` on
`"clang -c -Ifoo/bar file.c"` yields exactly `"clang -c file.c"`, and
add-include `baz` on the original string yields exactly
`"clang -c  -Ibaz -Ifoo/bar file.c"`, with the double space before
`-Ibaz` (the original separator followed by the leading space of the
inserted text) and a single space after it. -/
theorem roundtrip_example_actual :
    deleteIncludeOne (strOf "clang -c -Ifoo/bar file.c") (strOf "foo/bar")
        = strOf "clang -c file.c" ∧
    addIncludeOne (strOf "clang -c -Ifoo/bar file.c") (strOf "baz")
        = strOf "clang -c  -Ibaz -Ifoo/bar file.c" := by decide

/-- C10: when the command string contains `-I` with first occurrence at
offset `i`, folding the include list over the string yields a closed
form in which the supplied paths appear in reverse supply order: each
insertion anchors on the `-I` of the previously inserted text, so every
later supplied path lands at a smaller offset than every earlier one. -/
theorem add_include_reverse_order_spec (s : Str) (ps : List Str) (i : Nat)
    (h : findSub (strOf "-I") s = some i) :
    ps.foldl addIncludeOne s
      = s.take i ++ List.replicate ps.length ' '
          ++ (ps.reverse.map (fun p => strOf "-I" ++ p ++ strOf " ")).flatten
          ++ s.drop i := by
  induction ps generalizing s i with
  | nil => simp
  | cons p tl ih =>
    have hlt : i < s.length := findSub_lt_length (by decide) h
    have hfold : (p :: tl).foldl addIncludeOne s
        = tl.foldl addIncludeOne (insertAt s i (strOf " -I" ++ p ++ strOf " ")) := by
      rw [List.foldl_cons]
      congr 1
      simp only [addIncludeOne, h]
    have h' := findSub_insertAt_anchor s p i h
    have htake : (insertAt s i (strOf " -I" ++ p ++ strOf " ")).take (i + 1)
        = s.take i ++ [' '] := by
      rw [insertAt, List.append_assoc]
      have h2 : i + 1 = (s.take i).length + 1 := by
        rw [List.length_take]; omega
      rw [h2, List.take_append]
      rfl
    have hdrop : (insertAt s i (strOf " -I" ++ p ++ strOf " ")).drop (i + 1)
        = (strOf "-I" ++ p ++ strOf " ") ++ s.drop i := by
      rw [insertAt, List.append_assoc]
      have h2 : i + 1 = (s.take i).length + 1 := by
        rw [List.length_take]; omega
      rw [h2, List.drop_append]
      rfl
    rw [hfold, ih _ (i + 1) h', htake, hdrop]
    simp [List.replicate_succ, List.append_assoc]

/-- Witness for C10: two include additions on a string with one `-I`
anchor come out in reverse supply order. -/
theorem add_include_reverse_order_spec_witness :
    [strOf "p", strOf "q"].foldl addIncludeOne (strOf "cc -Ia")
      = strOf "cc   -Iq -Ip -Ia" :=
  (add_include_reverse_order_spec (strOf "cc -Ia") [strOf "p", strOf "q"] 3
    (by decide)).trans (by decide)

/-- C4: document normalization.  An array top level becomes the unit
sequence verbatim, a bare object becomes a one-element sequence, and
every other top-level shape fails with a MalformedDatabase error whose
message names the source path; a run on such an input fails and writes
no output. -/
theorem normalize_shape_spec (path : Str) (v : Json) :
    (∀ items, v = Json.arr items → normalizeDb path v = .ok items) ∧
    (∀ fields, v = Json.obj fields → normalizeDb path v = .ok [Json.obj fields]) ∧
    ((∀ items, v ≠ Json.arr items) → (∀ fields, v ≠ Json.obj fields) →
       normalizeDb path v = .error (Err.malformedDatabase path) ∧
       (∀ render, path <+: errMessage render (Err.malformedDatabase path)) ∧
       (∀ args : Args, args.compile_commands = path → allEmpty args = false →
          run args (.parsed v) = .failed (Err.malformedDatabase path) ∧
          wroteOutput (run args (.parsed v)) = false)) := by
  refine ⟨?_, ?_, ?_⟩
  · rintro items rfl; rfl
  · rintro fields rfl; rfl
  · intro hna hno
    have hn : normalizeDb path v = .error (Err.malformedDatabase path) := by
      cases v with
      | arr items => exact absurd rfl (hna items)
      | obj fields => exact absurd rfl (hno fields)
      | null => rfl
      | bool b => rfl
      | num n => rfl
      | str s => rfl
    refine ⟨hn, fun render => ⟨_, rfl⟩, ?_⟩
    intro args hpath hne
    have hrun : run args (.parsed v) = .failed (Err.malformedDatabase path) := by
      simp [run, hne, hpath, hn]
    exact ⟨hrun, by rw [hrun]; rfl⟩

/-- Witness for C4: an array input, a bare-object input, and a numeric
top level that makes a run fail with no output written. -/
theorem normalize_shape_spec_witness :
    normalizeDb (strOf "db.json") (Json.arr [Json.null]) = .ok [Json.null] ∧
    normalizeDb (strOf "db.json") (Json.obj []) = .ok [Json.obj []] ∧
    normalizeDb (strOf "db.json") (Json.num 3)
      = .error (Err.malformedDatabase (strOf "db.json")) ∧
    run (Args.mk (strOf "db.json") (strOf "o.json") [] [] [strOf "g"] [])
        (.parsed (Json.num 3))
      = .failed (Err.malformedDatabase (strOf "db.json")) := by
  refine ⟨?_, ?_, ?_, ?_⟩
  · exact (normalize_shape_spec (strOf "db.json") (Json.arr [Json.null])).1
      [Json.null] rfl
  · exact (normalize_shape_spec (strOf "db.json") (Json.obj [])).2.1 [] rfl
  · exact ((normalize_shape_spec (strOf "db.json") (Json.num 3)).2.2
      (fun items h => Json.noConfusion h) (fun fields h => Json.noConfusion h)).1
  · exact (((normalize_shape_spec (strOf "db.json") (Json.num 3)).2.2
      (fun items h => Json.noConfusion h) (fun fields h => Json.noConfusion h)).2.2
      (Args.mk (strOf "db.json") (strOf "o.json") [] [] [strOf "g"] []) rfl rfl).1

/-- C5: the missing-file quirk.  A compile-unit object with no `file`
key fails extraction with the missingFile error, that error arises from
an object exactly when `file` is absent, and its message text reads
"did not have a command field" even though the missing field is `file`,
for every rendering of the interpolated object. -/
theorem missing_file_quirk_spec (path : Str) (req : EditRequest)
    (fields : List (Str × Json)) :
    (lookupField (strOf "file") fields = none →
       processUnit path req (.obj fields) = .error (.missingFile fields)) ∧
    (processUnit path req (.obj fields) = .error (.missingFile fields) →
       lookupField (strOf "file") fields = none) ∧
    (∀ render, strOf "did not have a command field"
        <:+: errMessage render (.missingFile fields)) := by
  refine ⟨?_, ?_, ?_⟩
  · intro h
    simp only [processUnit, h]
  · intro h
    rcases hl : lookupField (strOf "file") fields with _ | fv
    · rfl
    · exfalso
      cases fv with
      | str name =>
        rcases hc : lookupField (strOf "command") fields with _ | cv
        · simp [processUnit, hl, hc] at h
        · cases cv <;> simp [processUnit, hl, hc] at h
      | null => simp [processUnit, hl] at h
      | bool b => simp [processUnit, hl] at h
      | num n => simp [processUnit, hl] at h
      | arr items => simp [processUnit, hl] at h
      | obj fields2 => simp [processUnit, hl] at h
  · intro render
    exact ⟨strOf "The following compile unit ",
      strOf ": " ++ render (Json.obj fields), rfl⟩

/-- Witness for C5: a concrete object without a `file` key fails with
the missingFile error. -/
theorem missing_file_quirk_spec_witness :
    processUnit (strOf "db.json") (EditRequest.mk [] [] [] [])
        (Json.obj [(strOf "x", Json.null)])
      = .error (Err.missingFile [(strOf "x", Json.null)]) :=
  (missing_file_quirk_spec (strOf "db.json") (EditRequest.mk [] [] [] [])
    [(strOf "x", Json.null)]).1 rfl

/-- C6: an entirely empty edit request short-circuits the run: the
outcome is the no-modification notice with exit status zero, no output
is written, and the outcome does not depend on the input file at all
(it equals the outcome on an unreadable input file). -/
theorem empty_request_no_io_spec (args : Args) (h : allEmpty args = true)
    (input : InputFile) :
    run args input = .noModification ∧
    wroteOutput (run args input) = false ∧
    exitsZero (run args input) = true ∧
    run args input = run args InputFile.unreadable := by
  have hr : ∀ inp : InputFile, run args inp = .noModification := by
    intro inp
    simp [run, h]
  exact ⟨hr input, by rw [hr input]; rfl, by rw [hr input]; rfl,
    (hr input).trans (hr InputFile.unreadable).symm⟩

/-- Witness for C6: a concrete invocation with all four edit lists
empty reports no modification even on an unreadable input file. -/
theorem empty_request_no_io_spec_witness :
    run (Args.mk (strOf "a") (strOf "b") [] [] [] []) InputFile.unreadable
      = .noModification :=
  (empty_request_no_io_spec (Args.mk (strOf "a") (strOf "b") [] [] [] []) rfl
    InputFile.unreadable).1

/-- C7: atomicity on failure.  With a non-empty edit request and a
normalized unit list, if any unit fails validation the run fails and
writes no output; conversely the output file only comes into existence
when processing of every unit has succeeded. -/
theorem atomic_failure_spec (args : Args) (v : Json) (units : List Json)
    (hne : allEmpty args = false)
    (hn : normalizeDb args.compile_commands v = .ok units) :
    ((∃ u ∈ units, ∃ e, processUnit args.compile_commands (reqOf args) u = .error e) →
       ∃ e, run args (.parsed v) = .failed e ∧
         wroteOutput (run args (.parsed v)) = false) ∧
    (∀ p c, run args (.parsed v) = .wrote p c →
       ∃ units', processAll args.compile_commands (reqOf args) units = .ok units') := by
  constructor
  · intro hex
    obtain ⟨e, he⟩ := processAll_error_of_mem _ _ _ hex
    have hrun : run args (.parsed v) = .failed e := by
      simp [run, hne, hn, he]
    exact ⟨e, hrun, by rw [hrun]; rfl⟩
  · intro p c hw
    rcases hm : processAll args.compile_commands (reqOf args) units
      with e | units'
    · have hrun : run args (.parsed v) = .failed e := by
        simp [run, hne, hn, hm]
      rw [hrun] at hw
      cases hw
    · exact ⟨units', rfl⟩

/-- Witness for C7: a database whose only unit lacks `command` makes a
concrete run fail with nothing written. -/
theorem atomic_failure_spec_witness :
    ∃ e, run (Args.mk (strOf "db") (strOf "out") [] [strOf "x"] [] [])
        (.parsed (Json.arr [Json.obj [(strOf "file", Json.str (strOf "a.c"))]]))
        = .failed e ∧
      wroteOutput (run (Args.mk (strOf "db") (strOf "out") [] [strOf "x"] [] [])
        (.parsed (Json.arr [Json.obj [(strOf "file", Json.str (strOf "a.c"))]])))
        = false :=
  (atomic_failure_spec (Args.mk (strOf "db") (strOf "out") [] [strOf "x"] [] [])
    (Json.arr [Json.obj [(strOf "file", Json.str (strOf "a.c"))]])
    [Json.obj [(strOf "file", Json.str (strOf "a.c"))]] rfl rfl).1
    ⟨Json.obj [(strOf "file", Json.str (strOf "a.c"))], by simp,
      Err.missingCommand (strOf "a.c"), rfl⟩

/-- C8: the frame property per compile unit.  A successfully processed
unit is an object, its processed form is an object, and every field
other than `command` keeps exactly the binding it had on input. -/
theorem command_only_frame_spec (path : Str) (req : EditRequest)
    (u u' : Json) (h : processUnit path req u = .ok u') :
    ∃ fields fields', u = .obj fields ∧ u' = .obj fields' ∧
      ∀ k, k ≠ strOf "command" → lookupField k fields' = lookupField k fields := by
  cases u with
  | obj fields =>
    rcases hl : lookupField (strOf "file") fields with _ | fv
    · simp [processUnit, hl] at h
    · cases fv with
      | str name =>
        rcases hc : lookupField (strOf "command") fields with _ | cv
        · simp [processUnit, hl, hc] at h
        · cases cv with
          | str cmd =>
            simp only [processUnit, hl, hc] at h
            obtain rfl : Json.obj (updateField (strOf "command")
                (Json.str (mutateCommand req cmd)) fields) = u' := by
              simpa using h
            exact ⟨fields, _, rfl, rfl,
              fun k hk => lookupField_updateField_ne k _ _ fields hk⟩
          | null => simp [processUnit, hl, hc] at h
          | bool b => simp [processUnit, hl, hc] at h
          | num n => simp [processUnit, hl, hc] at h
          | arr items => simp [processUnit, hl, hc] at h
          | obj fields2 => simp [processUnit, hl, hc] at h
      | null => simp [processUnit, hl] at h
      | bool b => simp [processUnit, hl] at h
      | num n => simp [processUnit, hl] at h
      | arr items => simp [processUnit, hl] at h
      | obj fields2 => simp [processUnit, hl] at h
  | null => simp [processUnit] at h
  | bool b => simp [processUnit] at h
  | num n => simp [processUnit] at h
  | str st => simp [processUnit] at h
  | arr items => simp [processUnit] at h

/-- Witness for C8: processing a concrete three-field unit rewrites
`command` and keeps the bindings of `file` and `dir`. -/
theorem command_only_frame_spec_witness :
    ∃ fields fields',
      Json.obj [(strOf "file", Json.str (strOf "a.c")),
        (strOf "command", Json.str (strOf "cc")),
        (strOf "dir", Json.null)] = Json.obj fields ∧
      Json.obj [(strOf "file", Json.str (strOf "a.c")),
        (strOf "command", Json.str (strOf "cc -g")),
        (strOf "dir", Json.null)] = Json.obj fields' ∧
      ∀ k, k ≠ strOf "command" → lookupField k fields' = lookupField k fields :=
  command_only_frame_spec (strOf "db") (EditRequest.mk [] [] [strOf "g"] [])
    (Json.obj [(strOf "file", Json.str (strOf "a.c")),
      (strOf "command", Json.str (strOf "cc")),
      (strOf "dir", Json.null)])
    (Json.obj [(strOf "file", Json.str (strOf "a.c")),
      (strOf "command", Json.str (strOf "cc -g")),
      (strOf "dir", Json.null)]) rfl

/-- C9: output shape.  A run that writes does so at the configured
output path, and writes a JSON array holding exactly the normalized
input units, processed pointwise in their original order with the
length preserved; a bare-object top level contributes the one-element
unit list, hence a one-element output array. -/
theorem output_array_order_spec (args : Args) (v : Json) (p : Str) (c : Json)
    (h : run args (.parsed v) = .wrote p c) :
    p = args.output ∧
    ∃ units units',
      normalizeDb args.compile_commands v = .ok units ∧
      processAll args.compile_commands (reqOf args) units = .ok units' ∧
      c = .arr units' ∧
      units'.length = units.length ∧
      (∀ (n : Nat) (x y : Json), units[n]? = some x → units'[n]? = some y →
         processUnit args.compile_commands (reqOf args) x = .ok y) ∧
      (∀ fields, v = .obj fields → units = [.obj fields]) := by
  cases hae : allEmpty args with
  | true =>
    rw [show run args (.parsed v) = .noModification by simp [run, hae]] at h
    cases h
  | false =>
    rcases hn : normalizeDb args.compile_commands v with e | units
    · rw [show run args (.parsed v) = .failed e by simp [run, hae, hn]] at h
      cases h
    · rcases hm : processAll args.compile_commands (reqOf args) units
        with e | units'
      · rw [show run args (.parsed v) = .failed e by simp [run, hae, hn, hm]] at h
        cases h
      · rw [show run args (.parsed v) = .wrote args.output (.arr units') by
          simp [run, hae, hn, hm]] at h
        injection h with h1 h2
        subst h1
        subst h2
        obtain ⟨hlen, hpt⟩ := processAll_ok_spec _ _ _ _ hm
        refine ⟨rfl, units, units', rfl, hm, rfl, hlen, hpt, ?_⟩
        intro fields hv
        rw [hv] at hn
        simp only [normalizeDb] at hn
        injection hn with h3
        exact h3.symm

/-- Witness for C9: a concrete run on a bare-object database writes a
one-element array at the configured output path. -/
theorem output_array_order_spec_witness :
    strOf "out"
      = (Args.mk (strOf "db") (strOf "out") [] [] [strOf "g"] []).output :=
  (output_array_order_spec (Args.mk (strOf "db") (strOf "out") [] [] [strOf "g"] [])
    (Json.obj [(strOf "file", Json.str (strOf "a.c")),
      (strOf "command", Json.str (strOf "cc"))])
    (strOf "out")
    (Json.arr [Json.obj [(strOf "file", Json.str (strOf "a.c")),
      (strOf "command", Json.str (strOf "cc -g"))]])
    rfl).1
